import Mathlib

/-!
# Verification of the simrs discrete-event simulation kernel

This file gives a shallow embedding, in Lean 4, of the simrs library:

* `src/queue.rs`   — `Fifo` and `PriorityQueue` with optional bounded capacity;
* `src/scheduler.rs` — `EventEntry`, its `PartialEq`/`Ord` instances, and
  `Scheduler` (a `std::collections::BinaryHeap<EventEntry>` plus a clock);
* `src/state.rs`   — the value store of `State`;
* `src/lib.rs`     — `Simulation::step`;
* `src/execute.rs` — `Executor` (`unbound` / `timed` / `steps`) and the
  post-step side effect of `run_with`.

Rust's `std::collections::BinaryHeap` is embedded faithfully, algorithm by
algorithm (`push` = append + `sift_up`; `pop` = `swap_remove`-style root
extraction + `sift_down_to_bottom`, which descends the hole to the bottom of
the tree along greater children and then sifts the moved element up).  The
exact algorithms matter: the heap is *not* insertion-stable, and the order in
which equal elements leave the heap is decided by these procedures.

Durations (`std::time::Duration`) are embedded as `Nat` (a count of
nanoseconds); `Reverse<Duration>` ordering is embedded by flipping the
comparison.  Machine-word indices stay well inside `usize` range in every
statement proved here, so `Nat` is used for them as well.

The recursive heap procedures are written with a structural fuel argument so
that every definition is executable by `decide`/`rfl`; the fuel is chosen so
that the fuel-exhaustion branch coincides with what the Rust loop would do
(both return the data unchanged once the index leaves the array), and all
entry points supply enough fuel for the loops to run to completion.
-/

namespace Simrs

/-! ## Rust `std::collections::BinaryHeap`, embedded over `List`

The backing `Vec<T>` is a `List α`; index `i` of the vector is position `i`
of the list.  `le a b` embeds Rust's `a <= b` (from the `Ord` bound). -/

/-- Parent index in the implicit binary tree of a binary heap:
node `i > 0` has parent `(i - 1) / 2`. -/
def parentIdx (i : Nat) : Nat := (i - 1) / 2

/-- Swap the entries at positions `i` and `j`; out-of-range indices leave the
list unchanged (the embedded algorithms only swap in-bounds indices). -/
def swapL (l : List α) (i j : Nat) : List α :=
  match l[i]?, l[j]? with
  | some a, some b => (l.set i b).set j a
  | _, _ => l

/-- Rust `BinaryHeap::sift_up` (with `start = 0`), hole-as-swaps formulation:
while the element at `pos` is greater than its parent, swap it with the
parent.  The fuel argument makes the recursion structural; `pos` strictly
decreases, so fuel `pos` is always sufficient, and on exhausted fuel `pos`
must be `0`, where the Rust loop also stops. -/
def siftUpAux (le : α → α → Bool) : Nat → List α → Nat → List α
  | _, l, 0 => l
  | 0, l, _ + 1 => l
  | fuel + 1, l, pos + 1 =>
    match l[pos + 1]?, l[parentIdx (pos + 1)]? with
    | some x, some p =>
      if le x p then l
      else siftUpAux le fuel (swapL l (pos + 1) (parentIdx (pos + 1))) (parentIdx (pos + 1))
    | _, _ => l

/-- Rust `BinaryHeap::push`: append the element, then sift it up from the last
position. -/
def heapPush (le : α → α → Bool) (l : List α) (x : α) : List α :=
  siftUpAux le l.length (l ++ [x]) l.length

/-- The descent loop of Rust `BinaryHeap::sift_down_to_bottom`: move the hole
all the way down, always swapping with the greater child (the right child on
ties, per `child += (get(child) <= get(child + 1)) as usize`), finishing with
an unconditional swap when only a left child exists.  Returns the final hole
position.  The hole index strictly increases, so fuel `l.length` is always
sufficient; on exhausted fuel the hole is outside the array, where the Rust
loop also stops. -/
def holeDescendAux (le : α → α → Bool) : Nat → List α → Nat → List α × Nat
  | 0, l, hole => (l, hole)
  | fuel + 1, l, hole =>
    match l[2 * hole + 1]?, l[2 * hole + 2]? with
    | some cl, some cr =>
      let c := if le cl cr then 2 * hole + 2 else 2 * hole + 1
      holeDescendAux le fuel (swapL l hole c) c
    | some _, none => (swapL l hole (2 * hole + 1), 2 * hole + 1)
    | _, _ => (l, hole)

/-- Rust `BinaryHeap::sift_down_to_bottom(pos)`: descend the hole to the
bottom, then sift the displaced element back up. -/
def siftDownToBottom (le : α → α → Bool) (l : List α) (pos : Nat) : List α :=
  let d := holeDescendAux le l.length l pos
  siftUpAux le d.2 d.1 d.2

/-- Rust `BinaryHeap::pop`: remove the last element; if the heap is still
nonempty, swap it with the root and repair with `sift_down_to_bottom(0)`.
Returns the old root together with the remaining heap. -/
def heapPop (le : α → α → Bool) (l : List α) : Option (α × List α) :=
  match l.getLast? with
  | none => none
  | some last =>
    match l.dropLast with
    | [] => some (last, [])
    | root :: rest => some (root, siftDownToBottom le (last :: rest) 0)

/-- Rust `BinaryHeap::peek`: the root of the heap, `data.get(0)`. -/
def heapPeek (l : List α) : Option α := l.head?

/-! ## `src/queue.rs` -/

/-- `queue.rs` `PushError`: error returned when a push to a bounded queue
fails because the queue reached its capacity. -/
structure PushError where
deriving DecidableEq

/-- `usize::MAX`, the default (effectively unbounded) queue capacity. -/
def usizeMax : Nat := 2 ^ 64 - 1

/-- `queue.rs` `Fifo<T>`: a `VecDeque` (embedded as a list, front first)
together with a capacity. -/
structure Fifo (α : Type) where
  inner : List α
  capacity : Nat
deriving DecidableEq

/-- `impl Default for Fifo`: empty, capacity `usize::MAX`. -/
def Fifo.new : Fifo α := ⟨[], usizeMax⟩

/-- `Fifo::bounded(capacity)`: empty queue with the given capacity. -/
def Fifo.bounded (capacity : Nat) : Fifo α := ⟨[], capacity⟩

/-- `impl Queue for Fifo`, `push`: `push_back` if `len < capacity`, else
`PushError`.  The mutated queue is returned explicitly. -/
def Fifo.push (q : Fifo α) (value : α) : Except PushError (Fifo α) :=
  if q.inner.length < q.capacity then Except.ok ⟨q.inner ++ [value], q.capacity⟩
  else Except.error ⟨⟩

/-- `impl Queue for Fifo`, `pop`: `pop_front`. -/
def Fifo.pop (q : Fifo α) : Option (α × Fifo α) :=
  match q.inner with
  | [] => none
  | x :: rest => some (x, ⟨rest, q.capacity⟩)

/-- `impl Queue for Fifo`, `len`. -/
def Fifo.len (q : Fifo α) : Nat := q.inner.length

/-- The `<=` of `T: Ord` used by `BinaryHeap<T>` inside `PriorityQueue<T>`. -/
def pqLe [LinearOrder α] (a b : α) : Bool := decide (a ≤ b)

/-- `queue.rs` `PriorityQueue<T>`: a `BinaryHeap` plus a capacity. -/
structure PriorityQueue (α : Type) where
  inner : List α
  capacity : Nat
deriving DecidableEq

/-- `impl Default for PriorityQueue`: empty, capacity `usize::MAX`. -/
def PriorityQueue.new [LinearOrder α] : PriorityQueue α := ⟨[], usizeMax⟩

/-- `PriorityQueue::bounded(capacity)`. -/
def PriorityQueue.bounded (capacity : Nat) : PriorityQueue α := ⟨[], capacity⟩

/-- `impl Queue for PriorityQueue`, `push`: heap push if `len < capacity`,
else `PushError`. -/
def PriorityQueue.push [LinearOrder α] (q : PriorityQueue α) (value : α) :
    Except PushError (PriorityQueue α) :=
  if q.inner.length < q.capacity then
    Except.ok ⟨heapPush pqLe q.inner value, q.capacity⟩
  else Except.error ⟨⟩

/-- `impl Queue for PriorityQueue`, `pop`: heap pop. -/
def PriorityQueue.pop [LinearOrder α] (q : PriorityQueue α) :
    Option (α × PriorityQueue α) :=
  (heapPop pqLe q.inner).map fun p => (p.1, ⟨p.2, q.capacity⟩)

/-- `impl Queue for PriorityQueue`, `len`. -/
def PriorityQueue.len (q : PriorityQueue α) : Nat := q.inner.length

/-! ## `src/scheduler.rs` -/

/-- `scheduler.rs` `EventEntry`: scheduled time (the Rust field holds
`Reverse<Duration>`; here the plain duration is stored and the reversal is
put into the comparison functions), component id, and type-erased payload
(the payload type is a parameter of the embedding). -/
structure EventEntry (ε : Type) where
  time : Nat
  component : Nat
  inner : ε
deriving DecidableEq

/-- `impl PartialEq for EventEntry`: `self.time == other.time` — payloads and
component ids are ignored. -/
def eventEq (a b : EventEntry ε) : Bool := decide (a.time = b.time)

/-- `impl Ord for EventEntry`: `self.time.cmp(&other.time)` on
`Reverse<Duration>` fields, i.e. the comparison of the durations flipped. -/
def eventCmp (a b : EventEntry ε) : Ordering := compare b.time a.time

/-- `a <= b` for event entries, as Rust derives it from `Ord::cmp`; this is
the comparison `BinaryHeap<EventEntry>` uses. -/
def entryLe (a b : EventEntry ε) : Bool := (eventCmp a b).isLE

/-- `scheduler.rs` `Scheduler`: the event heap and the clock.  The Rust clock
is an `Rc<Cell<Duration>>` owned by the scheduler and mutated only by `pop`;
single-threaded interior mutability is embedded as a plain field. -/
structure Scheduler (ε : Type) where
  events : List (EventEntry ε)
  clock : Nat
deriving DecidableEq

/-- `impl Default for Scheduler`: empty heap, clock at zero. -/
def Scheduler.new : Scheduler ε := ⟨[], 0⟩

/-- `Scheduler::time`: read the clock. -/
def Scheduler.time (s : Scheduler ε) : Nat := s.clock

/-- `Scheduler::schedule(time, component, event)`: push an entry at absolute
time `self.time() + time`. -/
def Scheduler.schedule (s : Scheduler ε) (time : Nat) (component : Nat) (event : ε) :
    Scheduler ε :=
  { s with events := heapPush entryLe s.events ⟨s.time + time, component, event⟩ }

/-- `Scheduler::schedule_now(component, event)`: `schedule(0, …)`. -/
def Scheduler.scheduleNow (s : Scheduler ε) (component : Nat) (event : ε) : Scheduler ε :=
  s.schedule 0 component event

/-- `Scheduler::pop`: pop the heap; on success set the clock to the popped
entry's time (`self.clock.replace(event.time.0)`). -/
def Scheduler.pop (s : Scheduler ε) : Option (EventEntry ε × Scheduler ε) :=
  (heapPop entryLe s.events).map fun p => (p.1, ⟨p.2, p.1.time⟩)

/-- Modelled from the spec: `Scheduler::peek` is called by `execute_until` in
`src/execute.rs` but its definition is missing from the source snapshot.
Per §4.2 of the spec it "observes the earliest entry without mutating the
clock"; the earliest entry of a `BinaryHeap` is its root (`data.get(0)`),
exactly the entry `pop` would return. -/
def Scheduler.peek (s : Scheduler ε) : Option (EventEntry ε) := heapPeek s.events

/-! ## `src/state.rs` — the value store

`State.store` is `HashMap<usize, Box<dyn Any>>`; a hash map keyed by `usize`
is embedded by its lookup function `Nat → Option _`.  The embedding is the
view of the store at a single payload type `α` (the `V` of the claim): keys
holding values of other types are invisible to `get::<V>`/`remove::<V>`
(their typed keys cannot collide thanks to the phantom parameter), but their
insertion advances the id counter.  Ids come from the process-wide atomic
`ID_COUNTER` (`generate_next_id` in `src/lib.rs`), embedded as the `nextId`
field; the program is single-threaded, so the atomic is a plain counter. -/

/-- The value-store part of `state.rs` `State`, viewed at one value type. -/
structure StoreState (α : Type) where
  store : Nat → Option α
  nextId : Nat

/-- A store with no values, counter at `n` (the counter is process-wide, so a
fresh `State` starts at whatever the counter currently holds). -/
def StoreState.empty (n : Nat) : StoreState α := ⟨fun _ => none, n⟩

/-- `State::insert`: mint a fresh id from the counter, store the boxed value
under it, return the key. -/
def StoreState.insert (s : StoreState α) (value : α) : Nat × StoreState α :=
  (s.nextId, ⟨fun n => if n = s.nextId then some value else s.store n, s.nextId + 1⟩)

/-- `State::insert` called at a *different* value type `W`: the global counter
advances, this type's view of the store does not change. -/
def StoreState.insertOther (s : StoreState α) : StoreState α :=
  ⟨s.store, s.nextId + 1⟩

/-- `State::remove`: evict and return the value under the key, if present. -/
def StoreState.remove (s : StoreState α) (key : Nat) : Option α × StoreState α :=
  (s.store key, ⟨fun n => if n = key then none else s.store n, s.nextId⟩)

/-- `State::get`: look up the value under the key. -/
def StoreState.get (s : StoreState α) (key : Nat) : Option α := s.store key

/-- One store operation, for stating properties over arbitrary interleavings:
an insert of this type, an insert at another type, or a remove. -/
inductive StoreOp (α : Type) where
  | insert (value : α)
  | insertOther
  | remove (key : Nat)
deriving DecidableEq

/-- Run a sequence of store operations. -/
def applyStoreOps (s : StoreState α) : List (StoreOp α) → StoreState α
  | [] => s
  | StoreOp.insert v :: rest => applyStoreOps (s.insert v).2 rest
  | StoreOp.insertOther :: rest => applyStoreOps s.insertOther rest
  | StoreOp.remove k :: rest => applyStoreOps (s.remove k).2 rest

/-! ## `src/lib.rs` `Simulation` and `src/execute.rs`

A registered component reacts to an event entry with mutable access to the
scheduler and the state (`Component::process_event` via
`Components::process_event_entry`).  The registry of type-erased components
is embedded as a single dispatch function (`Handler`), and the user state as
an abstract type `σ`; neither is inspected by the kernel code embedded here,
which is exactly the situation in the source. -/

/-- The dispatch performed by `Components::process_event_entry`: the entry is
handed to the addressed component, which may mutate the scheduler and the
state. -/
def Handler (ε σ : Type) := EventEntry ε → Scheduler ε → σ → Scheduler ε × σ

/-- `lib.rs` `Simulation`: one scheduler, one state (the components registry
is the `Handler` parameter threaded through the functions below). -/
structure Simulation (ε σ : Type) where
  scheduler : Scheduler ε
  state : σ

/-- `Simulation::step`, instrumented to also return the dispatched entry:
pop the scheduler; on `None` do nothing, otherwise dispatch the entry. -/
def stepCore (h : Handler ε σ) (s : Simulation ε σ) :
    Option (EventEntry ε × Simulation ε σ) :=
  s.scheduler.pop.map fun p =>
    let r := h p.1 p.2 s.state
    (p.1, ⟨r.1, r.2⟩)

/-- `lib.rs` `Simulation::step`: returns `true` iff an event was available
and was processed, `false` when the scheduler was empty. -/
def Simulation.step (h : Handler ε σ) (s : Simulation ε σ) : Bool × Simulation ε σ :=
  match stepCore h s with
  | none => (false, s)
  | some (_, s') => (true, s')

/-- `execute.rs` `EndCondition`. -/
inductive EndCondition where
  | time (t : Nat)
  | emptyQueue
  | steps (n : Nat)

/-- A run result: final simulation, the entries popped by the loop in order,
and the side-effect log — the post-step views of the simulation passed to the
hook, one per invocation (`run_with`'s `step_fn` calls the side effect
exactly when `sim.step()` returned `true`, with the simulation after that
step). -/
structure RunResult (ε σ : Type) where
  sim : Simulation ε σ
  trace : List (EventEntry ε)
  hookLog : List (Simulation ε σ)

/-- `execute.rs` `execute_steps`: at most `n` iterations, each performing one
step via `step_fn` and breaking as soon as a step reports the scheduler
empty. -/
def executeSteps (h : Handler ε σ) : Nat → Simulation ε σ → RunResult ε σ
  | 0, s => ⟨s, [], []⟩
  | n + 1, s =>
    match stepCore h s with
    | none => ⟨s, [], []⟩
    | some (e, s') =>
      let r := executeSteps h n s'
      ⟨r.sim, e :: r.trace, s' :: r.hookLog⟩

/-- `execute.rs` `execute_until`: loop while the next entry's scheduled time
is `≤ time`, stepping via `step_fn`.  The Rust loop has no step bound; a fuel
argument bounds the recursion, and every property proved about it holds for
all fuel values.  The inner `none` branch is unreachable (a nonempty heap
pops successfully) and returns the simulation unchanged. -/
def executeUntil (h : Handler ε σ) (time : Nat) : Nat → Simulation ε σ → RunResult ε σ
  | 0, s => ⟨s, [], []⟩
  | fuel + 1, s =>
    match s.scheduler.peek with
    | none => ⟨s, [], []⟩
    | some e =>
      if e.time ≤ time then
        match stepCore h s with
        | none => ⟨s, [], []⟩
        | some (e', s') =>
          let r := executeUntil h time fuel s'
          ⟨r.sim, e' :: r.trace, s' :: r.hookLog⟩
      else ⟨s, [], []⟩

/-- `execute.rs` `execute_until_empty`: step until the scheduler is empty
(fuel-bounded, as for `executeUntil`). -/
def executeUntilEmpty (h : Handler ε σ) : Nat → Simulation ε σ → RunResult ε σ
  | 0, s => ⟨s, [], []⟩
  | fuel + 1, s =>
    match stepCore h s with
    | none => ⟨s, [], []⟩
    | some (e, s') =>
      let r := executeUntilEmpty h fuel s'
      ⟨r.sim, e :: r.trace, s' :: r.hookLog⟩

/-- `execute.rs` `run_with`: dispatch on the end condition.  `fuel` is only
consumed by the two a-priori-unbounded loops. -/
def runWith (h : Handler ε σ) (c : EndCondition) (fuel : Nat) (s : Simulation ε σ) :
    RunResult ε σ :=
  match c with
  | EndCondition.time t => executeUntil h t fuel s
  | EndCondition.emptyQueue => executeUntilEmpty h fuel s
  | EndCondition.steps n => executeSteps h n s

/-! ## Specification predicates -/

/-- Totality of the embedded `<=` (every `Ord` comparison is total). -/
def LeTotal (le : α → α → Bool) : Prop :=
  ∀ a b, le a b = true ∨ le b a = true

/-- Transitivity of the embedded `<=`. -/
def LeTrans (le : α → α → Bool) : Prop :=
  ∀ a b c, le a b = true → le b c = true → le a c = true

/-- The max-heap shape invariant of Rust's `BinaryHeap`: every node is `<=`
its parent. -/
def IsHeap (le : α → α → Bool) (l : List α) : Prop :=
  ∀ i x p, 0 < i → l[i]? = some x → l[parentIdx i]? = some p → le x p = true

/-- State of the array during `sift_up`: every edge except the one out of
`pos` is ordered, and the children of `pos` already fit below the parent of
`pos` (so moving the element at `pos` up cannot break their edges). -/
def AlmostHeapUp (le : α → α → Bool) (l : List α) (pos : Nat) : Prop :=
  (∀ i x p, 0 < i → i ≠ pos → l[i]? = some x → l[parentIdx i]? = some p →
    le x p = true) ∧
  (∀ c x g, 0 < pos → parentIdx c = pos → 0 < c → l[c]? = some x →
    l[parentIdx pos]? = some g → le x g = true)

/-- State of the array during the descent of `sift_down_to_bottom`: every
edge not touching the hole at `pos` is ordered, and the children of the hole
fit below the hole's parent. -/
def AlmostHeapDown (le : α → α → Bool) (l : List α) (pos : Nat) : Prop :=
  (∀ i x p, 0 < i → i ≠ pos → parentIdx i ≠ pos → l[i]? = some x →
    l[parentIdx i]? = some p → le x p = true) ∧
  (∀ c x g, 0 < pos → parentIdx c = pos → 0 < c → l[c]? = some x →
    l[parentIdx pos]? = some g → le x g = true)

/-- Scheduler invariant: the event list is a binary heap for the entry
ordering, and no pending entry is earlier than the clock. -/
def SchedInv (s : Scheduler ε) : Prop :=
  IsHeap entryLe s.events ∧ ∀ e ∈ s.events, s.clock ≤ e.time

/-- Scheduler states reachable through the public interface: a fresh
scheduler, `schedule` (hence also `schedule_now`), and successful `pop`.
These are the only operations that touch the heap or the clock during a
simulation (components receive `&mut Scheduler` and can call exactly
these). -/
inductive SchedReach : Scheduler ε → Prop where
  | new : SchedReach Scheduler.new
  | schedule (s : Scheduler ε) (d c : Nat) (ev : ε) :
      SchedReach s → SchedReach (s.schedule d c ev)
  | pop (s : Scheduler ε) (e : EventEntry ε) (s' : Scheduler ε) :
      SchedReach s → s.pop = some (e, s') → SchedReach s'

/-- Store invariant: all keys at or above the id counter are vacant (the
counter only ever grew, and every insertion used a then-fresh counter
value). -/
def StoreInv (s : StoreState α) : Prop :=
  ∀ k, s.nextId ≤ k → s.store k = none

/-- One queue operation: `State::send` (a push) or `State::recv` (a pop). -/
inductive QOp (α : Type) where
  | send (value : α)
  | recv

/-- Result of running a sequence of queue operations: the final queue, the
successfully sent items in order, and the received items in order.  (A send
refused with `PushError` leaves the queue unchanged and the item is not
recorded as sent; a `recv` on an empty queue returns `None` and records
nothing.) -/
structure QueueRun (Q α : Type) where
  queue : Q
  sent : List α
  received : List α

/-- Run `State::send`/`State::recv` (which are exactly `Queue::push` and
`Queue::pop` on the addressed queue) against a `Fifo`. -/
def Fifo.run (q : Fifo α) : List (QOp α) → QueueRun (Fifo α) α
  | [] => ⟨q, [], []⟩
  | QOp.send v :: rest =>
    match q.push v with
    | Except.ok q' =>
      let r := q'.run rest
      ⟨r.queue, v :: r.sent, r.received⟩
    | Except.error _ => q.run rest
  | QOp.recv :: rest =>
    match q.pop with
    | some (x, q') =>
      let r := q'.run rest
      ⟨r.queue, r.sent, x :: r.received⟩
    | none => q.run rest

/-- Run `State::send`/`State::recv` against a `PriorityQueue`. -/
def PriorityQueue.run [LinearOrder α] (q : PriorityQueue α) :
    List (QOp α) → QueueRun (PriorityQueue α) α
  | [] => ⟨q, [], []⟩
  | QOp.send v :: rest =>
    match q.push v with
    | Except.ok q' =>
      let r := q'.run rest
      ⟨r.queue, v :: r.sent, r.received⟩
    | Except.error _ => q.run rest
  | QOp.recv :: rest =>
    match q.pop with
    | some (x, q') =>
      let r := q'.run rest
      ⟨r.queue, r.sent, x :: r.received⟩
    | none => q.run rest

/-- Priority queues reachable through the public interface (`default`,
`bounded`, `push`, `pop`). -/
inductive PQReach [LinearOrder α] : PriorityQueue α → Prop where
  | new : PQReach PriorityQueue.new
  | bounded (c : Nat) : PQReach (PriorityQueue.bounded c)
  | push (q : PriorityQueue α) (v : α) (q' : PriorityQueue α) :
      PQReach q → q.push v = Except.ok q' → PQReach q'
  | pop (q : PriorityQueue α) (x : α) (q' : PriorityQueue α) :
      PQReach q → q.pop = some (x, q') → PQReach q'

/-! ## Concrete components used as witnesses

`TestComponent` from the tests of `src/execute.rs`: its state is a counter in
the value store; on each event it increments the counter and, while the
counter is below 10, reschedules itself 2 seconds later. -/

/-- The capped self-rescheduling counter component (state: the counter). -/
def capH : Handler Unit Nat := fun e sch n =>
  let n' := n + 1
  (if n' < 10 then sch.schedule 2 e.component () else sch, n')

/-- A fresh simulation of the counter component with one event at t = 0. -/
def capSim : Simulation Unit Nat := ⟨Scheduler.new.schedule 0 0 (), 0⟩

/-- An uncapped variant: always reschedules itself 2 seconds later
(scenario B of the spec: timed execution stops at the last event ≤ T). -/
def unboundH : Handler Unit Nat := fun e sch n =>
  (sch.schedule 2 e.component (), n + 1)

/-- Handlers that leave the clock where it was: every `Scheduler` method a
component can call except `pop` keeps the clock unchanged, and ordinary
components (including every component in the repository's tests and
examples) only call `schedule`/`schedule_now`. -/
def PreservesClock (h : Handler ε σ) : Prop :=
  ∀ e sch st, (h e sch st).1.clock = sch.clock

/-- Four schedule calls at the same resulting timestamp (delay 0 from a fresh
scheduler), with payloads 1, 2, 3, 4 recording the insertion order. -/
def tieSched : Scheduler Nat :=
  (((Scheduler.new.schedule 0 0 1).schedule 0 0 2).schedule 0 0 3).schedule 0 0 4

/-- Pop up to `fuel` entries off a scheduler, listing their payloads in pop
order. -/
def schedPopAll : Nat → Scheduler ε → List ε
  | 0, _ => []
  | n + 1, s =>
    match s.pop with
    | none => []
    | some (e, s') => e.inner :: schedPopAll n s'

/-! # Lemmas

## Swaps and permutations -/

theorem lt_length_of_some {l : List α} {i : Nat} {a : α} (h : l[i]? = some a) :
    i < l.length :=
  (List.getElem?_eq_some_iff.mp h).1

theorem swapL_length (l : List α) (i j : Nat) : (swapL l i j).length = l.length := by
  unfold swapL
  cases l[i]? <;> cases l[j]? <;> simp

theorem swapL_fst {l : List α} {i j : Nat} {a b : α}
    (h1 : l[i]? = some a) (h2 : l[j]? = some b) : (swapL l i j)[i]? = some b := by
  unfold swapL
  rw [h1, h2]
  rcases eq_or_ne j i with rfl | hne
  · rw [h1] at h2
    cases h2
    simp [List.set_set, lt_length_of_some h1]
  · rw [List.getElem?_set_ne hne, List.getElem?_set_self (lt_length_of_some h1)]

theorem swapL_snd {l : List α} {i j : Nat} {a b : α}
    (h1 : l[i]? = some a) (h2 : l[j]? = some b) : (swapL l i j)[j]? = some a := by
  unfold swapL
  rw [h1, h2]
  have : j < (l.set i b).length := by simpa using lt_length_of_some h2
  rw [List.getElem?_set_self this]

theorem swapL_other {l : List α} {i j k : Nat} (hk1 : k ≠ i) (hk2 : k ≠ j) :
    (swapL l i j)[k]? = l[k]? := by
  unfold swapL
  cases l[i]? <;> cases l[j]? <;>
    simp [List.getElem?_set_ne (Ne.symm hk2), List.getElem?_set_ne (Ne.symm hk1)]

theorem perm_cons_set {xs : List α} : ∀ {k : Nat} {b : α}, xs[k]? = some b →
    ∀ x : α, List.Perm (b :: xs.set k x) (x :: xs) := by
  induction xs with
  | nil => intro k b h; simp at h
  | cons y t ih =>
    intro k b h x
    cases k with
    | zero =>
      simp only [List.getElem?_cons_zero, Option.some.injEq] at h
      subst h
      exact List.Perm.swap x y t
    | succ k =>
      simp only [List.getElem?_cons_succ] at h
      refine (List.Perm.swap y b (t.set k x)).trans ?_
      exact ((ih h x).cons y).trans (List.Perm.swap x y t)

theorem perm_set_set {l : List α} : ∀ {i j : Nat} {a b : α},
    l[i]? = some a → l[j]? = some b → List.Perm ((l.set i b).set j a) l := by
  induction l with
  | nil => intro i j a b h; simp at h
  | cons y t ih =>
    intro i j a b hi hj
    cases i with
    | zero =>
      simp only [List.getElem?_cons_zero, Option.some.injEq] at hi
      subst hi
      cases j with
      | zero =>
        simp only [List.getElem?_cons_zero, Option.some.injEq] at hj
        subst hj
        simp
      | succ k =>
        simp only [List.getElem?_cons_succ] at hj
        simpa using perm_cons_set hj y
    | succ m =>
      simp only [List.getElem?_cons_succ] at hi
      cases j with
      | zero =>
        simp only [List.getElem?_cons_zero, Option.some.injEq] at hj
        subst hj
        simpa using perm_cons_set hi y
      | succ k =>
        simp only [List.getElem?_cons_succ] at hj
        simpa using (ih hi hj).cons y

theorem swapL_perm (l : List α) (i j : Nat) : List.Perm (swapL l i j) l := by
  unfold swapL
  cases hi : l[i]? with
  | none => exact List.Perm.refl l
  | some a =>
    cases hj : l[j]? with
    | none => exact List.Perm.refl l
    | some b => exact perm_set_set hi hj

theorem siftUpAux_perm (le : α → α → Bool) :
    ∀ fuel (l : List α) pos, List.Perm (siftUpAux le fuel l pos) l := by
  intro fuel
  induction fuel with
  | zero => intro l pos; cases pos <;> simp [siftUpAux]
  | succ n ih =>
    intro l pos
    cases pos with
    | zero => simp [siftUpAux]
    | succ q =>
      rw [siftUpAux]
      cases h1 : l[q + 1]? with
      | none => exact List.Perm.refl l
      | some x =>
        cases h2 : l[parentIdx (q + 1)]? with
        | none => exact List.Perm.refl l
        | some p =>
          by_cases hle : le x p
          · simp [hle]
          · simp only [hle, Bool.false_eq_true, if_false]
            exact (ih _ _).trans (swapL_perm _ _ _)

theorem holeDescendAux_perm (le : α → α → Bool) :
    ∀ fuel (l : List α) hole, List.Perm (holeDescendAux le fuel l hole).1 l := by
  intro fuel
  induction fuel with
  | zero => intro l hole; exact List.Perm.refl l
  | succ n ih =>
    intro l hole
    rw [holeDescendAux]
    cases h1 : l[2 * hole + 1]? with
    | none => cases h2 : l[2 * hole + 2]? <;> exact List.Perm.refl l
    | some cl =>
      cases h2 : l[2 * hole + 2]? with
      | none => exact swapL_perm l hole (2 * hole + 1)
      | some cr => exact (ih _ _).trans (swapL_perm _ _ _)

theorem siftDownToBottom_perm (le : α → α → Bool) (l : List α) (pos : Nat) :
    List.Perm (siftDownToBottom le l pos) l := by
  unfold siftDownToBottom
  exact (siftUpAux_perm _ _ _ _).trans (holeDescendAux_perm _ _ _ _)

theorem heapPush_perm (le : α → α → Bool) (l : List α) (x : α) :
    List.Perm (heapPush le l x) (x :: l) :=
  (siftUpAux_perm _ _ _ _).trans (List.perm_append_singleton x l)

theorem heapPop_none (le : α → α → Bool) {l : List α} :
    heapPop le l = none ↔ l = [] := by
  unfold heapPop
  cases hl : l.getLast? with
  | none => simp [List.getLast?_eq_none_iff.mp hl]
  | some last =>
    have hne : l ≠ [] := by
      intro h
      rw [h] at hl
      simp at hl
    cases hd : l.dropLast <;> simp [hne]

theorem heapPop_some (le : α → α → Bool) {l : List α} {x : α} {r : List α}
    (h : heapPop le l = some (x, r)) :
    l.head? = some x ∧ List.Perm (x :: r) l := by
  unfold heapPop at h
  cases hl : l.getLast? with
  | none => rw [hl] at h; exact absurd h (by simp)
  | some last =>
    have hjoin : l.dropLast ++ [last] = l := List.dropLast_append_getLast? last hl
    rw [hl] at h
    cases hd : l.dropLast with
    | nil =>
      rw [hd] at h hjoin
      simp only [Option.some.injEq, Prod.mk.injEq] at h
      rcases h with ⟨rfl, rfl⟩
      constructor
      · rw [← hjoin]; rfl
      · rw [← hjoin]; exact List.Perm.refl _
    | cons root rest =>
      rw [hd] at h hjoin
      simp only [Option.some.injEq, Prod.mk.injEq] at h
      rcases h with ⟨rfl, rfl⟩
      constructor
      · rw [← hjoin]; rfl
      · refine ((siftDownToBottom_perm _ _ _).cons root).trans ?_
        rw [← hjoin]
        exact (List.perm_append_singleton last rest).symm.cons root

/-! ## Index arithmetic -/

theorem parentIdx_lt {i : Nat} (h : 0 < i) : parentIdx i < i := by
  unfold parentIdx; omega

theorem parentIdx_eq_iff {c p : Nat} (hc : 0 < c) :
    parentIdx c = p ↔ c = 2 * p + 1 ∨ c = 2 * p + 2 := by
  unfold parentIdx; omega

/-! ## The embedded orders are total and transitive -/

theorem entryLe_eq (a b : EventEntry ε) : entryLe a b = decide (b.time ≤ a.time) := by
  unfold entryLe eventCmp
  rcases Nat.lt_trichotomy a.time b.time with h | h | h
  · rw [Nat.compare_eq_gt.mpr h]
    have : ¬ b.time ≤ a.time := by omega
    simp [this, Ordering.isLE]
  · rw [Nat.compare_eq_eq.mpr h.symm]
    have : b.time ≤ a.time := by omega
    simp [this, Ordering.isLE]
  · rw [Nat.compare_eq_lt.mpr h]
    have : b.time ≤ a.time := by omega
    simp [this, Ordering.isLE]

theorem entryLe_total : LeTotal (entryLe (ε := ε)) := by
  intro a b
  simp only [entryLe_eq, decide_eq_true_eq]
  omega

theorem entryLe_trans : LeTrans (entryLe (ε := ε)) := by
  intro a b c
  simp only [entryLe_eq, decide_eq_true_eq]
  omega

theorem pqLe_total [LinearOrder α] : LeTotal (pqLe (α := α)) := by
  intro a b
  simp only [pqLe, decide_eq_true_eq]
  exact le_total a b

theorem pqLe_trans [LinearOrder α] : LeTrans (pqLe (α := α)) := by
  intro a b c
  simp only [pqLe, decide_eq_true_eq]
  exact le_trans

/-! ## Sift-up repairs the heap -/

theorem almostHeapUp_swap {le : α → α → Bool} (hto : LeTotal le) (htr : LeTrans le)
    {l : List α} {pos : Nat} {x p : α} (h0 : 0 < pos)
    (hx : l[pos]? = some x) (hp : l[parentIdx pos]? = some p)
    (hle : le x p = false) (H : AlmostHeapUp le l pos) :
    AlmostHeapUp le (swapL l pos (parentIdx pos)) (parentIdx pos) := by
  have hpar_lt : parentIdx pos < pos := parentIdx_lt h0
  have hpx : le p x = true := by
    rcases hto x p with h | h
    · rw [h] at hle; cases hle
    · exact h
  have e1 : (swapL l pos (parentIdx pos))[pos]? = some p := swapL_fst hx hp
  have e2 : (swapL l pos (parentIdx pos))[parentIdx pos]? = some x := swapL_snd hx hp
  have eo : ∀ k, k ≠ pos → k ≠ parentIdx pos →
      (swapL l pos (parentIdx pos))[k]? = l[k]? :=
    fun _ h1 h2 => swapL_other h1 h2
  constructor
  · intro i y z hi hine hy hz
    by_cases hip : i = pos
    · subst hip
      rw [e1] at hy
      injection hy with hy1
      subst hy1
      rw [e2] at hz
      injection hz with hz1
      subst hz1
      exact hpx
    · rw [eo i hip hine] at hy
      by_cases hpi : parentIdx i = pos
      · rw [hpi, e1] at hz
        injection hz with hz1
        subst hz1
        exact H.2 i y _ h0 hpi hi hy hp
      · by_cases hpi2 : parentIdx i = parentIdx pos
        · rw [hpi2, e2] at hz
          injection hz with hz1
          subst hz1
          have h1 : le y p = true := H.1 i y p hi hip hy (by rw [hpi2]; exact hp)
          exact htr y p _ h1 hpx
        · rw [eo (parentIdx i) hpi hpi2] at hz
          exact H.1 i y z hi hip hy hz
  · intro c y g hpos0 hpc hc0 hy hg
    have hgp_lt : parentIdx (parentIdx pos) < parentIdx pos := parentIdx_lt hpos0
    rw [eo (parentIdx (parentIdx pos)) (by omega) (by omega)] at hg
    by_cases hcp : c = pos
    · subst hcp
      rw [e1] at hy
      injection hy with hy1
      subst hy1
      exact H.1 (parentIdx c) _ g hpos0 (by omega) hp hg
    · have hch := (parentIdx_eq_iff hc0).mp hpc
      have hcpar : c ≠ parentIdx pos := by omega
      rw [eo c hcp hcpar] at hy
      have h1 : le y p = true := H.1 c y p hc0 hcp hy (by rw [hpc]; exact hp)
      have h2 : le p g = true := H.1 (parentIdx pos) p g hpos0 (by omega) hp hg
      exact htr y p g h1 h2

theorem isHeap_siftUpAux {le : α → α → Bool} (hto : LeTotal le) (htr : LeTrans le) :
    ∀ fuel pos (l : List α), pos ≤ fuel → AlmostHeapUp le l pos →
      IsHeap le (siftUpAux le fuel l pos) := by
  intro fuel
  induction fuel with
  | zero =>
    intro pos l hpf H
    have hp0 : pos = 0 := by omega
    subst hp0
    intro i y z hi hy hz
    exact H.1 i y z hi (by omega) hy hz
  | succ n ih =>
    intro pos l hpf H
    cases pos with
    | zero =>
      intro i y z hi hy hz
      exact H.1 i y z hi (by omega) hy hz
    | succ q =>
      rw [siftUpAux]
      cases hx : l[q + 1]? with
      | none =>
        show IsHeap le l
        intro i y z hi hy hz
        by_cases hiq : i = q + 1
        · subst hiq; rw [hx] at hy; cases hy
        · exact H.1 i y z hi hiq hy hz
      | some x =>
        cases hp : l[parentIdx (q + 1)]? with
        | none =>
          show IsHeap le l
          intro i y z hi hy hz
          by_cases hiq : i = q + 1
          · subst hiq; rw [hp] at hz; cases hz
          · exact H.1 i y z hi hiq hy hz
        | some p =>
          show IsHeap le (if le x p = true then l
            else siftUpAux le n (swapL l (q + 1) (parentIdx (q + 1))) (parentIdx (q + 1)))
          by_cases hle : le x p = true
          · rw [if_pos hle]
            intro i y z hi hy hz
            by_cases hiq : i = q + 1
            · subst hiq
              rw [hx] at hy
              injection hy with hy1
              subst hy1
              rw [hp] at hz
              injection hz with hz1
              subst hz1
              exact hle
            · exact H.1 i y z hi hiq hy hz
          · rw [if_neg hle]
            have hle2 : le x p = false := by simpa using hle
            have hq : parentIdx (q + 1) ≤ n := by
              have := parentIdx_lt (i := q + 1) (by omega)
              omega
            exact ih (parentIdx (q + 1)) _ hq
              (almostHeapUp_swap hto htr (by omega) hx hp hle2 H)

theorem almostHeapUp_append {le : α → α → Bool} {l : List α}
    (H : IsHeap le l) (x : α) : AlmostHeapUp le (l ++ [x]) l.length := by
  constructor
  · intro i y z hi hine hy hz
    have hil : i < l.length + 1 := by simpa using lt_length_of_some hy
    have hi2 : i < l.length := by omega
    rw [List.getElem?_append_left hi2] at hy
    have hpl : parentIdx i < l.length := by
      have := parentIdx_lt hi
      omega
    rw [List.getElem?_append_left hpl] at hz
    exact H i y z hi hy hz
  · intro c y g h0 hpc hc0 hy hg
    have h1 : c < l.length + 1 := by simpa using lt_length_of_some hy
    have h2 := (parentIdx_eq_iff hc0).mp hpc
    omega

theorem isHeap_heapPush {le : α → α → Bool} (hto : LeTotal le) (htr : LeTrans le)
    {l : List α} (H : IsHeap le l) (x : α) : IsHeap le (heapPush le l x) :=
  isHeap_siftUpAux hto htr l.length l.length (l ++ [x]) (Nat.le_refl _)
    (almostHeapUp_append H x)

/-! ## Sift-down-to-bottom repairs the heap -/

theorem almostHeapDown_swapChild {le : α → α → Bool}
    {l : List α} {hole c o : Nat}
    (hco : (c = 2 * hole + 1 ∧ o = 2 * hole + 2) ∨ (c = 2 * hole + 2 ∧ o = 2 * hole + 1))
    {xc xo xh : α} (hch : l[c]? = some xc) (hoh : l[o]? = some xo)
    (hh : l[hole]? = some xh) (hmax : le xo xc = true)
    (H : AlmostHeapDown le l hole) :
    AlmostHeapDown le (swapL l hole c) c := by
  have hpc : parentIdx c = hole := by unfold parentIdx; omega
  have hpo : parentIdx o = hole := by unfold parentIdx; omega
  have hhc : hole < c := by omega
  have hho : hole < o := by omega
  have hoc : o ≠ c := by omega
  have e1 : (swapL l hole c)[hole]? = some xc := swapL_fst hh hch
  have e2 : (swapL l hole c)[c]? = some xh := swapL_snd hh hch
  have eo : ∀ k, k ≠ hole → k ≠ c → (swapL l hole c)[k]? = l[k]? :=
    fun _ h1 h2 => swapL_other h1 h2
  constructor
  · intro i y z hi hic hpic hy hz
    by_cases hih : i = hole
    · rw [hih] at hy hi hz
      rw [e1] at hy
      injection hy with hy1
      have hplt : parentIdx hole < hole := parentIdx_lt hi
      rw [eo (parentIdx hole) (by omega) (by omega)] at hz
      subst hy1
      exact H.2 c _ z hi hpc (by omega) hch hz
    · by_cases hio : i = o
      · rw [hio] at hy hz
        rw [eo o (by omega) hoc, hoh] at hy
        injection hy with hy1
        rw [hpo, e1] at hz
        injection hz with hz1
        subst hy1
        subst hz1
        exact hmax
      · have hpih : parentIdx i ≠ hole := by
          intro hcon
          have := (parentIdx_eq_iff hi).mp hcon
          omega
        rw [eo i hih hic] at hy
        rw [eo (parentIdx i) hpih hpic] at hz
        exact H.1 i y z hi hih hpih hy hz
  · intro d y g hc0 hpd hd0 hy hg
    rw [hpc, e1] at hg
    injection hg with hg1
    have hdc : c < d := by
      have := (parentIdx_eq_iff hd0).mp hpd
      omega
    have hy2 : l[d]? = some y := by
      rw [← eo d (by omega) (by omega)]
      exact hy
    subst hg1
    exact H.1 d y _ hd0 (by omega) (by rw [hpd]; omega) hy2 (by rw [hpd]; exact hch)

theorem almostHeapDown_to_up {le : α → α → Bool} {l : List α} {hole : Nat}
    (hb : l.length ≤ 2 * hole + 1) (H : AlmostHeapDown le l hole) :
    AlmostHeapUp le l hole := by
  constructor
  · intro i y z hi hine hy hz
    have hil := lt_length_of_some hy
    have hpih : parentIdx i ≠ hole := by
      intro hcon
      have := (parentIdx_eq_iff hi).mp hcon
      omega
    exact H.1 i y z hi hine hpih hy hz
  · exact H.2

theorem almostHeapDown_last {le : α → α → Bool} {l : List α} {hole : Nat}
    {cl : α} (hcl : l[2 * hole + 1]? = some cl) (hnone : l[2 * hole + 2]? = none)
    (H : AlmostHeapDown le l hole) :
    AlmostHeapUp le (swapL l hole (2 * hole + 1)) (2 * hole + 1) := by
  have hc_lt : 2 * hole + 1 < l.length := lt_length_of_some hcl
  have hlen : l.length ≤ 2 * hole + 2 := List.getElem?_eq_none_iff.mp hnone
  have hh_lt : hole < l.length := by omega
  obtain ⟨xh, hh⟩ : ∃ y, l[hole]? = some y := ⟨_, List.getElem?_eq_getElem hh_lt⟩
  have hpc : parentIdx (2 * hole + 1) = hole := by unfold parentIdx; omega
  have e1 : (swapL l hole (2 * hole + 1))[hole]? = some cl := swapL_fst hh hcl
  have eo : ∀ k, k ≠ hole → k ≠ 2 * hole + 1 →
      (swapL l hole (2 * hole + 1))[k]? = l[k]? :=
    fun _ h1 h2 => swapL_other h1 h2
  have hlsw : (swapL l hole (2 * hole + 1)).length = l.length := swapL_length l _ _
  constructor
  · intro i y z hi hine hy hz
    have hil : i < l.length := by
      rw [← hlsw]
      exact lt_length_of_some hy
    by_cases hih : i = hole
    · rw [hih] at hy hi hz
      rw [e1] at hy
      injection hy with hy1
      have hplt : parentIdx hole < hole := parentIdx_lt hi
      rw [eo (parentIdx hole) (by omega) (by omega)] at hz
      subst hy1
      exact H.2 (2 * hole + 1) _ z hi hpc (by omega) hcl hz
    · have hpih : parentIdx i ≠ hole := by
        intro hcon
        have := (parentIdx_eq_iff hi).mp hcon
        omega
      have hpic : parentIdx i ≠ 2 * hole + 1 := by
        intro hcon
        have := (parentIdx_eq_iff hi).mp hcon
        omega
      rw [eo i hih hine] at hy
      rw [eo (parentIdx i) hpih hpic] at hz
      exact H.1 i y z hi hih hpih hy hz
  · intro d y g h0 hpd hd0 hy hg
    have hdl : d < l.length := by
      rw [← hlsw]
      exact lt_length_of_some hy
    have := (parentIdx_eq_iff hd0).mp hpd
    omega

theorem almostHeapUp_descend {le : α → α → Bool} (hto : LeTotal le) :
    ∀ fuel (l : List α) hole, l.length ≤ fuel + hole →
      AlmostHeapDown le l hole →
      AlmostHeapUp le (holeDescendAux le fuel l hole).1 (holeDescendAux le fuel l hole).2 := by
  intro fuel
  induction fuel with
  | zero =>
    intro l hole hb H
    show AlmostHeapUp le l hole
    exact almostHeapDown_to_up (by omega) H
  | succ n ih =>
    intro l hole hb H
    rw [holeDescendAux]
    cases hcl : l[2 * hole + 1]? with
    | none =>
      have h1 := List.getElem?_eq_none_iff.mp hcl
      cases hcr : l[2 * hole + 2]? with
      | none =>
        show AlmostHeapUp le l hole
        exact almostHeapDown_to_up (by omega) H
      | some cr => exact absurd (lt_length_of_some hcr) (by omega)
    | some cl =>
      cases hcr : l[2 * hole + 2]? with
      | none =>
        show AlmostHeapUp le (swapL l hole (2 * hole + 1)) (2 * hole + 1)
        exact almostHeapDown_last hcl hcr H
      | some cr =>
        have hh : l[hole]? = some (l.get ⟨hole, by have := lt_length_of_some hcl; omega⟩) := by
          simp [List.get_eq_getElem]
        show AlmostHeapUp le
          (holeDescendAux le n
            (swapL l hole (if le cl cr then 2 * hole + 2 else 2 * hole + 1))
            (if le cl cr then 2 * hole + 2 else 2 * hole + 1)).1
          (holeDescendAux le n
            (swapL l hole (if le cl cr then 2 * hole + 2 else 2 * hole + 1))
            (if le cl cr then 2 * hole + 2 else 2 * hole + 1)).2
        cases hb2 : le cl cr with
        | true =>
          simp only [if_true]
          refine ih _ _ (by rw [swapL_length]; omega) ?_
          exact almostHeapDown_swapChild (Or.inr ⟨rfl, rfl⟩) hcr hcl hh hb2 H
        | false =>
          simp only [Bool.false_eq_true, if_false]
          refine ih _ _ (by rw [swapL_length]; omega) ?_
          have hmax : le cr cl = true := by
            rcases hto cl cr with h | h
            · rw [h] at hb2; cases hb2
            · exact h
          exact almostHeapDown_swapChild (Or.inl ⟨rfl, rfl⟩) hcl hcr hh hmax H

theorem isHeap_siftDownToBottom {le : α → α → Bool} (hto : LeTotal le) (htr : LeTrans le)
    {l : List α} (H : AlmostHeapDown le l 0) : IsHeap le (siftDownToBottom le l 0) := by
  unfold siftDownToBottom
  exact isHeap_siftUpAux hto htr _ _ _ (Nat.le_refl _)
    (almostHeapUp_descend hto l.length l 0 (by omega) H)

theorem isHeap_heapPop {le : α → α → Bool} (hto : LeTotal le) (htr : LeTrans le)
    {l : List α} (H : IsHeap le l) {x : α} {r : List α}
    (h : heapPop le l = some (x, r)) : IsHeap le r := by
  unfold heapPop at h
  cases hl : l.getLast? with
  | none => rw [hl] at h; cases h
  | some last =>
    rw [hl] at h
    have hjoin : l.dropLast ++ [last] = l := List.dropLast_append_getLast? last hl
    cases hd : l.dropLast with
    | nil =>
      rw [hd] at h
      simp only [Option.some.injEq, Prod.mk.injEq] at h
      obtain ⟨rfl, rfl⟩ := h
      intro i y z hi hy hz
      simp at hy
    | cons root rest =>
      rw [hd] at h hjoin
      simp only [Option.some.injEq, Prod.mk.injEq] at h
      obtain ⟨rfl, rfl⟩ := h
      apply isHeap_siftDownToBottom hto htr
      constructor
      · intro i y z hi hine hpine hy hz
        have hget : ∀ j (w : α), 0 < j → (last :: rest)[j]? = some w → l[j]? = some w := by
          intro j w hj hw
          have hjl : j < rest.length + 1 := by simpa using lt_length_of_some hw
          rw [← hjoin]
          rw [List.getElem?_append_left (by simp only [List.length_cons]; omega)]
          cases j with
          | zero => omega
          | succ m => simpa using hw
        have h0pi : 0 < parentIdx i := Nat.pos_of_ne_zero hpine
        exact H i y z hi (hget i y hi hy) (hget (parentIdx i) z h0pi hz)
      · intro c y g h0 _ _ _ _
        exact absurd h0 (by omega)

/-! ## The root of a heap is maximal -/

theorem isHeap_le_root {le : α → α → Bool} (hto : LeTotal le) (htr : LeTrans le)
    {l : List α} (H : IsHeap le l) {r : α} (hr : l[0]? = some r) :
    ∀ (i : Nat) (x : α), l[i]? = some x → le x r = true := by
  intro i
  induction i using Nat.strong_induction_on with
  | _ i ih =>
    intro x hx
    rcases Nat.eq_zero_or_pos i with h0 | hpos
    · subst h0
      rw [hr] at hx
      injection hx with h1
      subst h1
      rcases hto r r with h | h <;> exact h
    · have hplt : parentIdx i < i := parentIdx_lt hpos
      have hpl : parentIdx i < l.length := by
        have := lt_length_of_some hx
        omega
      obtain ⟨p, hp⟩ : ∃ p, l[parentIdx i]? = some p := ⟨_, List.getElem?_eq_getElem hpl⟩
      have h1 : le x p = true := H i x p hpos hx hp
      have h2 : le p r = true := ih (parentIdx i) hplt p hp
      exact htr x p r h1 h2

theorem isHeap_mem_le {le : α → α → Bool} (hto : LeTotal le) (htr : LeTrans le)
    {l : List α} (H : IsHeap le l) {r : α} (hr : l[0]? = some r) :
    ∀ x ∈ l, le x r = true := by
  intro x hx
  obtain ⟨i, hi⟩ := List.mem_iff_getElem?.mp hx
  exact isHeap_le_root hto htr H hr i x hi

theorem heapPop_root {le : α → α → Bool} {l : List α} {x : α} {r : List α}
    (h : heapPop le l = some (x, r)) : l[0]? = some x := by
  rw [← List.head?_eq_getElem?]
  exact (heapPop_some le h).1

/-! ## Scheduler invariant -/

theorem schedInv_new : SchedInv (Scheduler.new (ε := ε)) := by
  constructor
  · intro i x p hi hx hp
    simp [Scheduler.new] at hx
  · intro e he
    simp [Scheduler.new] at he

theorem schedInv_schedule {s : Scheduler ε} (H : SchedInv s) (d c : Nat) (ev : ε) :
    SchedInv (s.schedule d c ev) := by
  constructor
  · exact isHeap_heapPush entryLe_total entryLe_trans H.1 _
  · intro e he
    have hmem := (heapPush_perm entryLe s.events ⟨s.time + d, c, ev⟩).mem_iff.mp he
    rcases List.mem_cons.mp hmem with rfl | hmem2
    · show s.clock ≤ s.time + d
      unfold Scheduler.time
      omega
    · exact H.2 e hmem2

theorem sched_pop_facts {s : Scheduler ε} (H : SchedInv s) {e : EventEntry ε}
    {s' : Scheduler ε} (h : s.pop = some (e, s')) :
    SchedInv s' ∧ s.clock ≤ e.time ∧ s'.clock = e.time ∧
      (∀ f ∈ s'.events, f ∈ s.events) ∧ e ∈ s.events := by
  unfold Scheduler.pop at h
  cases hp : heapPop entryLe s.events with
  | none => rw [hp] at h; cases h
  | some pr =>
    rw [hp] at h
    obtain ⟨x, r⟩ := pr
    simp only [Option.map_some', Option.some.injEq, Prod.mk.injEq] at h
    obtain ⟨rfl, rfl⟩ := h
    have hroot : s.events[0]? = some x := heapPop_root hp
    have hperm := (heapPop_some entryLe hp).2
    have hmemx : x ∈ s.events := hperm.mem_iff.mp (List.mem_cons_self x r)
    have hsub : ∀ f ∈ r, f ∈ s.events := fun f hf =>
      hperm.mem_iff.mp (List.mem_cons_of_mem x hf)
    refine ⟨⟨isHeap_heapPop entryLe_total entryLe_trans H.1 hp, ?_⟩,
      H.2 x hmemx, rfl, hsub, hmemx⟩
    intro f hf
    have hle : entryLe f x = true :=
      isHeap_mem_le entryLe_total entryLe_trans H.1 hroot f (hsub f hf)
    rw [entryLe_eq] at hle
    exact of_decide_eq_true hle

theorem schedReach_inv {s : Scheduler ε} (h : SchedReach s) : SchedInv s := by
  induction h with
  | new => exact schedInv_new
  | schedule s d c ev _ ih => exact schedInv_schedule ih d c ev
  | pop s e s' _ hpop ih => exact (sched_pop_facts ih hpop).1

theorem sched_pop_none {s : Scheduler ε} : s.pop = none ↔ s.events = [] := by
  constructor
  · intro h
    cases hp : heapPop entryLe s.events with
    | none => exact (heapPop_none entryLe).mp hp
    | some pr =>
      unfold Scheduler.pop at h
      rw [hp] at h
      cases h
  · intro h
    unfold Scheduler.pop
    rw [(heapPop_none entryLe).mpr h]
    rfl

theorem sched_peek_pop {s : Scheduler ε} {e : EventEntry ε} {s' : Scheduler ε}
    (h : s.pop = some (e, s')) : s.peek = some e := by
  unfold Scheduler.pop at h
  cases hp : heapPop entryLe s.events with
  | none => rw [hp] at h; cases h
  | some pr =>
    rw [hp] at h
    obtain ⟨x, r⟩ := pr
    simp only [Option.map_some', Option.some.injEq, Prod.mk.injEq] at h
    obtain ⟨rfl, -⟩ := h
    unfold Scheduler.peek heapPeek
    exact (heapPop_some entryLe hp).1

theorem sched_peek_none {s : Scheduler ε} : s.peek = none ↔ s.events = [] := by
  unfold Scheduler.peek heapPeek
  exact List.head?_eq_none_iff

/-! ## Priority queue invariant and pop order -/

theorem pqReach_isHeap [LinearOrder α] {q : PriorityQueue α} (h : PQReach q) :
    IsHeap pqLe q.inner := by
  induction h with
  | new =>
    intro i x p hi hx hp
    simp [PriorityQueue.new] at hx
  | bounded c =>
    intro i x p hi hx hp
    simp [PriorityQueue.bounded] at hx
  | push q v q' hq hpush ih =>
    unfold PriorityQueue.push at hpush
    by_cases hlt : q.inner.length < q.capacity
    · rw [if_pos hlt] at hpush
      injection hpush with h1
      rw [← h1]
      exact isHeap_heapPush pqLe_total pqLe_trans ih v
    · rw [if_neg hlt] at hpush
      cases hpush
  | pop q x q' hq hpop ih =>
    unfold PriorityQueue.pop at hpop
    cases hp : heapPop pqLe q.inner with
    | none => rw [hp] at hpop; cases hpop
    | some pr =>
      rw [hp] at hpop
      obtain ⟨y, r⟩ := pr
      simp only [Option.map_some', Option.some.injEq, Prod.mk.injEq] at hpop
      obtain ⟨rfl, rfl⟩ := hpop
      exact isHeap_heapPop pqLe_total pqLe_trans ih hp

theorem pq_pop_pop_le [LinearOrder α] {q : PriorityQueue α} (hq : IsHeap pqLe q.inner)
    {x : α} {q' : PriorityQueue α} (h1 : q.pop = some (x, q'))
    {y : α} {q'' : PriorityQueue α} (h2 : q'.pop = some (y, q'')) : y ≤ x := by
  unfold PriorityQueue.pop at h1 h2
  cases hp1 : heapPop pqLe q.inner with
  | none => rw [hp1] at h1; cases h1
  | some pr1 =>
    rw [hp1] at h1
    obtain ⟨x1, r1⟩ := pr1
    simp only [Option.map_some', Option.some.injEq, Prod.mk.injEq] at h1
    obtain ⟨rfl, rfl⟩ := h1
    cases hp2 : heapPop pqLe r1 with
    | none => rw [hp2] at h2; cases h2
    | some pr2 =>
      rw [hp2] at h2
      obtain ⟨y2, r2⟩ := pr2
      simp only [Option.map_some', Option.some.injEq, Prod.mk.injEq] at h2
      obtain ⟨rfl, rfl⟩ := h2
      have hyr1 : y2 ∈ r1 := List.mem_iff_getElem?.mpr ⟨0, heapPop_root hp2⟩
      have hymem : y2 ∈ q.inner :=
        (heapPop_some pqLe hp1).2.mem_iff.mp (List.mem_cons_of_mem x1 hyr1)
      have hle : pqLe y2 x1 = true :=
        isHeap_mem_le pqLe_total pqLe_trans hq (heapPop_root hp1) y2 hymem
      exact of_decide_eq_true hle

/-! ## FIFO conservation -/

theorem fifo_run_conservation (q : Fifo α) (ops : List (QOp α)) :
    (q.run ops).received ++ (q.run ops).queue.inner = q.inner ++ (q.run ops).sent := by
  induction ops generalizing q with
  | nil => simp [Fifo.run]
  | cons op rest ih =>
    cases op with
    | send v =>
      rw [Fifo.run]
      cases hp : q.push v with
      | ok q' =>
        have hinner : q'.inner = q.inner ++ [v] := by
          unfold Fifo.push at hp
          by_cases hlt : q.inner.length < q.capacity
          · rw [if_pos hlt] at hp
            injection hp with h1
            rw [← h1]
          · rw [if_neg hlt] at hp
            cases hp
        show (q'.run rest).received ++ (q'.run rest).queue.inner =
          q.inner ++ v :: (q'.run rest).sent
        rw [ih q', hinner, List.append_assoc]
        rfl
      | error e => exact ih q
    | recv =>
      rw [Fifo.run]
      cases hp : q.pop with
      | none => exact ih q
      | some pr =>
        obtain ⟨x, q'⟩ := pr
        have hinner : q.inner = x :: q'.inner := by
          unfold Fifo.pop at hp
          cases hq : q.inner with
          | nil => rw [hq] at hp; cases hp
          | cons a t =>
            rw [hq] at hp
            simp only [Option.some.injEq, Prod.mk.injEq] at hp
            obtain ⟨rfl, rfl⟩ := hp
            rfl
        show (x :: (q'.run rest).received) ++ (q'.run rest).queue.inner =
          q.inner ++ (q'.run rest).sent
        rw [hinner, List.cons_append, ih q']
        simp

/-! ## Store lemmas -/

theorem storeInv_insert {s : StoreState α} (H : StoreInv s) (v : α) :
    StoreInv (s.insert v).2 := by
  intro k hk
  show (if k = s.nextId then some v else s.store k) = none
  have hne : k ≠ s.nextId := by
    show ¬ _
    have : s.nextId + 1 ≤ k := hk
    omega
  rw [if_neg hne]
  exact H k (by have : s.nextId + 1 ≤ k := hk; omega)

theorem storeInv_insertOther {s : StoreState α} (H : StoreInv s) :
    StoreInv s.insertOther := by
  intro k hk
  exact H k (by have : s.nextId + 1 ≤ k := hk; omega)

theorem storeInv_remove {s : StoreState α} (H : StoreInv s) (key : Nat) :
    StoreInv (s.remove key).2 := by
  intro k hk
  show (if k = key then none else s.store k) = none
  by_cases hkk : k = key
  · rw [if_pos hkk]
  · rw [if_neg hkk]
    exact H k hk

theorem store_get_persistent {s : StoreState α} (H : StoreInv s) {k : Nat} {v : α}
    (hk : s.get k = some v) :
    ∀ ops : List (StoreOp α), StoreOp.remove k ∉ ops →
      (applyStoreOps s ops).get k = some v := by
  intro ops
  induction ops generalizing s with
  | nil => intro _; exact hk
  | cons op rest ih =>
    intro hno
    cases op with
    | insert w =>
      rw [applyStoreOps]
      refine ih (storeInv_insert H w) ?_ (fun hmem => hno (List.mem_cons_of_mem _ hmem))
      have hklt : k < s.nextId := by
        by_contra hcon
        rw [StoreState.get, H k (by omega)] at hk
        cases hk
      show (if k = s.nextId then some w else s.store k) = some v
      rw [if_neg (by omega)]
      exact hk
    | insertOther =>
      rw [applyStoreOps]
      exact ih (storeInv_insertOther H) hk (fun hmem => hno (List.mem_cons_of_mem _ hmem))
    | remove key =>
      rw [applyStoreOps]
      have hkey : k ≠ key := by
        intro hcon
        rw [hcon] at hno
        exact hno (List.mem_cons_self _ _)
      refine ih (storeInv_remove H key) ?_ (fun hmem => hno (List.mem_cons_of_mem _ hmem))
      show (if k = key then none else s.store k) = some v
      rw [if_neg hkey]
      exact hk

/-! ## Simulation step and executor lemmas -/

theorem sched_pop_clock {s : Scheduler ε} {e : EventEntry ε} {s' : Scheduler ε}
    (h : s.pop = some (e, s')) : s'.clock = e.time := by
  unfold Scheduler.pop at h
  cases hp : heapPop entryLe s.events with
  | none => rw [hp] at h; cases h
  | some pr =>
    rw [hp] at h
    obtain ⟨x, r⟩ := pr
    simp only [Option.map_some', Option.some.injEq, Prod.mk.injEq] at h
    obtain ⟨rfl, rfl⟩ := h
    rfl

theorem stepCore_none {h : Handler ε σ} {s : Simulation ε σ} :
    stepCore h s = none ↔ s.scheduler.events = [] := by
  unfold stepCore
  rw [Option.map_eq_none']
  exact sched_pop_none

theorem stepCore_peek {h : Handler ε σ} {s : Simulation ε σ} {e : EventEntry ε}
    {s' : Simulation ε σ} (hs : stepCore h s = some (e, s')) :
    s.scheduler.peek = some e := by
  unfold stepCore at hs
  cases hp : s.scheduler.pop with
  | none => rw [hp] at hs; cases hs
  | some pr =>
    rw [hp] at hs
    obtain ⟨e0, sch0⟩ := pr
    simp only [Option.map_some', Option.some.injEq, Prod.mk.injEq] at hs
    obtain ⟨rfl, -⟩ := hs
    exact sched_peek_pop hp

theorem stepCore_clock {h : Handler ε σ} (hpc : PreservesClock h)
    {s : Simulation ε σ} {e : EventEntry ε} {s' : Simulation ε σ}
    (hs : stepCore h s = some (e, s')) : s'.scheduler.clock = e.time := by
  unfold stepCore at hs
  cases hp : s.scheduler.pop with
  | none => rw [hp] at hs; cases hs
  | some pr =>
    rw [hp] at hs
    obtain ⟨e0, sch0⟩ := pr
    simp only [Option.map_some', Option.some.injEq, Prod.mk.injEq] at hs
    obtain ⟨rfl, rfl⟩ := hs
    show ((h e0 sch0 s.state).1).clock = e0.time
    rw [hpc]
    exact sched_pop_clock hp

theorem executeSteps_facts (h : Handler ε σ) :
    ∀ (n : Nat) (s : Simulation ε σ),
      (executeSteps h n s).trace.length ≤ n ∧
      ((executeSteps h n s).trace.length < n →
        (executeSteps h n s).sim.scheduler.events = []) := by
  intro n
  induction n with
  | zero =>
    intro s
    exact ⟨Nat.le_refl 0, fun hlt => absurd hlt (by omega)⟩
  | succ m ih =>
    intro s
    rw [executeSteps]
    cases hc : stepCore h s with
    | none =>
      refine ⟨by simp, fun _ => ?_⟩
      exact stepCore_none.mp hc
    | some pr =>
      obtain ⟨e, s'⟩ := pr
      constructor
      · show (e :: (executeSteps h m s').trace).length ≤ m + 1
        have := (ih s').1
        simp only [List.length_cons]
        omega
      · intro hlt
        have hlt2 : (executeSteps h m s').trace.length < m := by
          have : (e :: (executeSteps h m s').trace).length < m + 1 := hlt
          simp only [List.length_cons] at this
          omega
        exact (ih s').2 hlt2

theorem executeUntil_empty (h : Handler ε σ) (T : Nat) (fuel : Nat)
    (s : Simulation ε σ) (hs : s.scheduler.events = []) :
    executeUntil h T fuel s = ⟨s, [], []⟩ := by
  cases fuel with
  | zero => rfl
  | succ n =>
    rw [executeUntil, sched_peek_none.mpr hs]

theorem executeUntil_peek_none (h : Handler ε σ) (T n : Nat) (s : Simulation ε σ)
    (hpk : s.scheduler.peek = none) : executeUntil h T (n + 1) s = ⟨s, [], []⟩ := by
  rw [executeUntil, hpk]

theorem executeUntil_over (h : Handler ε σ) (T n : Nat) (s : Simulation ε σ)
    {e0 : EventEntry ε} (hpk : s.scheduler.peek = some e0) (ht : ¬ e0.time ≤ T) :
    executeUntil h T (n + 1) s = ⟨s, [], []⟩ := by
  rw [executeUntil, hpk]
  show (if e0.time ≤ T then
      match stepCore h s with
      | none => (⟨s, [], []⟩ : RunResult ε σ)
      | some (e', s') =>
        ⟨(executeUntil h T n s').sim, e' :: (executeUntil h T n s').trace,
          s' :: (executeUntil h T n s').hookLog⟩
    else ⟨s, [], []⟩) = ⟨s, [], []⟩
  rw [if_neg ht]

theorem executeUntil_step (h : Handler ε σ) (T n : Nat) (s : Simulation ε σ)
    {e0 e1 : EventEntry ε} {s1 : Simulation ε σ}
    (hpk : s.scheduler.peek = some e0) (ht : e0.time ≤ T)
    (hc : stepCore h s = some (e1, s1)) :
    executeUntil h T (n + 1) s =
      ⟨(executeUntil h T n s1).sim, e1 :: (executeUntil h T n s1).trace,
        s1 :: (executeUntil h T n s1).hookLog⟩ := by
  rw [executeUntil, hpk]
  show (if e0.time ≤ T then
      match stepCore h s with
      | none => (⟨s, [], []⟩ : RunResult ε σ)
      | some (e', s') =>
        ⟨(executeUntil h T n s').sim, e' :: (executeUntil h T n s').trace,
          s' :: (executeUntil h T n s').hookLog⟩
    else ⟨s, [], []⟩) = _
  rw [if_pos ht, hc]

theorem executeUntil_facts (h : Handler ε σ) (hpc : PreservesClock h) (T : Nat) :
    ∀ (fuel : Nat) (s : Simulation ε σ),
      (∀ e ∈ (executeUntil h T fuel s).trace, e.time ≤ T) ∧
      ((executeUntil h T fuel s).trace = [] → (executeUntil h T fuel s).sim = s) ∧
      (∀ e : EventEntry ε, (executeUntil h T fuel s).trace.getLast? = some e →
        (executeUntil h T fuel s).sim.scheduler.clock = e.time) := by
  intro fuel
  induction fuel with
  | zero =>
    intro s
    exact ⟨by simp [executeUntil], fun _ => rfl, fun e he => by simp [executeUntil] at he⟩
  | succ n ih =>
    intro s
    cases hpk : s.scheduler.peek with
    | none =>
      rw [executeUntil_peek_none h T n s hpk]
      exact ⟨by simp, fun _ => rfl, fun e he => by simp at he⟩
    | some e0 =>
      by_cases ht : e0.time ≤ T
      · cases hc : stepCore h s with
        | none =>
          have : s.scheduler.peek = none := sched_peek_none.mpr (stepCore_none.mp hc)
          rw [hpk] at this
          cases this
        | some pr =>
          obtain ⟨e1, s1⟩ := pr
          rw [executeUntil_step h T n s hpk ht hc]
          have he1 : e1 = e0 := by
            have hq := stepCore_peek hc
            rw [hpk] at hq
            injection hq with h1
            exact h1.symm
          refine ⟨?_, ?_, ?_⟩
          · intro e he
            rcases List.mem_cons.mp he with rfl | hmem
            · rw [he1]; exact ht
            · exact (ih s1).1 e hmem
          · intro habs
            exact absurd habs (by simp)
          · intro e he
            show (executeUntil h T n s1).sim.scheduler.clock = e.time
            cases htr : (executeUntil h T n s1).trace with
            | nil =>
              have hsim : (executeUntil h T n s1).sim = s1 := (ih s1).2.1 htr
              have he2 : (e1 :: (executeUntil h T n s1).trace).getLast? = some e := he
              rw [htr] at he2
              simp only [List.getLast?_singleton, Option.some.injEq] at he2
              rw [hsim, ← he2]
              exact stepCore_clock hpc hc
            | cons a t =>
              have he2 : (e1 :: (executeUntil h T n s1).trace).getLast? = some e := he
              rw [htr, List.getLast?_cons_cons] at he2
              refine (ih s1).2.2 e ?_
              rw [htr]
              exact he2
      · rw [executeUntil_over h T n s hpk ht]
        exact ⟨by simp, fun _ => rfl, fun e he => by simp at he⟩

theorem executeSteps_hook (h : Handler ε σ) :
    ∀ (n : Nat) (s : Simulation ε σ),
      (executeSteps h n s).hookLog.length = (executeSteps h n s).trace.length := by
  intro n
  induction n with
  | zero => intro s; rfl
  | succ m ih =>
    intro s
    rw [executeSteps]
    cases hc : stepCore h s with
    | none => rfl
    | some pr =>
      obtain ⟨e, s'⟩ := pr
      show (s' :: (executeSteps h m s').hookLog).length =
        (e :: (executeSteps h m s').trace).length
      simp only [List.length_cons]
      rw [ih s']

theorem executeUntilEmpty_hook (h : Handler ε σ) :
    ∀ (fuel : Nat) (s : Simulation ε σ),
      (executeUntilEmpty h fuel s).hookLog.length =
        (executeUntilEmpty h fuel s).trace.length := by
  intro fuel
  induction fuel with
  | zero => intro s; rfl
  | succ n ih =>
    intro s
    rw [executeUntilEmpty]
    cases hc : stepCore h s with
    | none => rfl
    | some pr =>
      obtain ⟨e, s'⟩ := pr
      show (s' :: (executeUntilEmpty h n s').hookLog).length =
        (e :: (executeUntilEmpty h n s').trace).length
      simp only [List.length_cons]
      rw [ih s']

theorem executeUntil_hook (h : Handler ε σ) (T : Nat) :
    ∀ (fuel : Nat) (s : Simulation ε σ),
      (executeUntil h T fuel s).hookLog.length =
        (executeUntil h T fuel s).trace.length := by
  intro fuel
  induction fuel with
  | zero => intro s; rfl
  | succ n ih =>
    intro s
    cases hpk : s.scheduler.peek with
    | none =>
      rw [executeUntil_peek_none h T n s hpk]
      rfl
    | some e0 =>
      by_cases ht : e0.time ≤ T
      · cases hc : stepCore h s with
        | none =>
          have : s.scheduler.peek = none := sched_peek_none.mpr (stepCore_none.mp hc)
          rw [hpk] at this
          cases this
        | some pr =>
          obtain ⟨e1, s1⟩ := pr
          rw [executeUntil_step h T n s hpk ht hc]
          show (s1 :: (executeUntil h T n s1).hookLog).length =
            (e1 :: (executeUntil h T n s1).trace).length
          simp only [List.length_cons]
          rw [ih s1]
      · rw [executeUntil_over h T n s hpk ht]
        rfl

/-! # Claim theorems -/

/-- C9: `EventEntry` equality and ordering are determined solely by the
timestamp: `eventEq` holds and `eventCmp` returns `Ordering.eq` exactly when
the times agree, for arbitrary component ids and payloads — the heap carries
no tie-breaking key beyond time. -/
theorem c9_eventEntry_compares_by_time_only (a b : EventEntry ε) :
    (eventEq a b = true ↔ a.time = b.time) ∧
    (eventCmp a b = Ordering.eq ↔ a.time = b.time) := by
  constructor
  · simp [eventEq]
  · unfold eventCmp
    rw [Nat.compare_eq_eq]
    exact ⟨fun h => h.symm, fun h => h.symm⟩

/-- C10: on a simulation whose scheduler is empty, `Simulation::step` returns
`false` and returns the simulation itself — clock, value store, queues and
registered components are all untouched. -/
theorem c10_step_on_empty_scheduler (h : Handler ε σ) (s : Simulation ε σ)
    (hs : s.scheduler.events = []) : Simulation.step h s = (false, s) := by
  unfold Simulation.step
  rw [stepCore_none.mpr hs]

/-- Witness for C10 at a concrete empty simulation. -/
theorem c10_step_on_empty_scheduler_witness :
    Simulation.step (fun _ sch st => (sch, st)) (⟨Scheduler.new, 0⟩ : Simulation Unit Nat) =
      (false, ⟨Scheduler.new, 0⟩) :=
  c10_step_on_empty_scheduler _ _ rfl

/-- C2: on every reachable scheduler, a successful `pop` sets the clock to
the popped entry's time and never decreases it, and `schedule` leaves the
clock unchanged — so the clock never decreases across a simulation's
lifetime. -/
theorem c2_clock_monotone {s : Scheduler ε} (hs : SchedReach s) :
    (∀ (e : EventEntry ε) (s' : Scheduler ε), s.pop = some (e, s') →
      s'.clock = e.time ∧ s.clock ≤ s'.clock) ∧
    (∀ (d c : Nat) (ev : ε), (s.schedule d c ev).clock = s.clock) := by
  have Hinv := schedReach_inv hs
  constructor
  · intro e s' hpop
    have f := sched_pop_facts Hinv hpop
    refine ⟨f.2.2.1, ?_⟩
    rw [f.2.2.1]
    exact f.2.1
  · intro d c ev
    rfl

/-- Witness for C2: scheduling one event 5 s out and popping it moves the
clock from 0 to 5. -/
theorem c2_clock_monotone_witness :
    ((⟨[], 5⟩ : Scheduler Unit)).clock = (⟨5, 0, ()⟩ : EventEntry Unit).time ∧
    (Scheduler.new.schedule 5 0 ()).clock ≤ ((⟨[], 5⟩ : Scheduler Unit)).clock :=
  (c2_clock_monotone (SchedReach.schedule Scheduler.new 5 0 () SchedReach.new)).1
    ⟨5, 0, ()⟩ ⟨[], 5⟩ rfl

/-- C1 counterexample: four events scheduled at the same resulting timestamp
(payloads record schedule order 1, 2, 3, 4) are popped in the order
1, 3, 2, 4: the entry scheduled third is dispatched before the entry
scheduled second, so timestamp ties are not broken FIFO by insertion
order. -/
theorem c1_fifo_ties_counterexample :
    (∀ e ∈ tieSched.events, e.time = 0) ∧
    schedPopAll 4 tieSched = [1, 3, 2, 4] ∧
    [1, 3, 2, 4] ≠ [1, 2, 3, 4] := by
  refine ⟨by decide, by decide, by decide⟩

/-- C1 (amended): the scheduler dispatches entries in non-decreasing
timestamp order — consecutive pops from any reachable scheduler never go
back in time — but entries with equal timestamps leave the heap in the
binary heap's internal order, which need not match insertion order. -/
theorem c1_pop_times_non_decreasing {s : Scheduler ε} (hs : SchedReach s)
    {e1 : EventEntry ε} {s1 : Scheduler ε} (h1 : s.pop = some (e1, s1))
    {e2 : EventEntry ε} {s2 : Scheduler ε} (h2 : s1.pop = some (e2, s2)) :
    e1.time ≤ e2.time := by
  have Hinv := schedReach_inv hs
  have f1 := sched_pop_facts Hinv h1
  have f2 := sched_pop_facts f1.1 h2
  have hle := f2.2.1
  rw [f1.2.2.1] at hle
  exact hle

/-- Witness for the amended C1: popping entries scheduled at 1 s and 2 s
yields non-decreasing times. -/
theorem c1_pop_times_non_decreasing_witness :
    (⟨1, 0, 10⟩ : EventEntry Nat).time ≤ (⟨2, 0, 20⟩ : EventEntry Nat).time :=
  @c1_pop_times_non_decreasing Nat
    ((Scheduler.new.schedule 1 0 10).schedule 2 0 20)
    (SchedReach.schedule _ 2 0 20 (SchedReach.schedule _ 1 0 10 SchedReach.new))
    ⟨1, 0, 10⟩ ⟨[⟨2, 0, 20⟩], 1⟩ rfl
    ⟨2, 0, 20⟩ ⟨[], 2⟩ rfl

/-- C3: `Executor::timed(T)` (the `execute_until` loop, stated for every
fuel bound on the a-priori-unbounded loop) pops no entry with time greater
than `T`; if the scheduler is empty it stops immediately with the simulation
untouched; and when nothing was dispatched the simulation is unchanged,
while otherwise the clock ends at the last dispatched entry's time — not at
`T`.  The clock statements assume the components leave the clock alone
(`PreservesClock`), which holds for any component that only calls
`schedule`/`schedule_now`. -/
theorem c3_timed_execution (h : Handler ε σ) (hpc : PreservesClock h) (T fuel : Nat)
    (s : Simulation ε σ) :
    (∀ e ∈ (executeUntil h T fuel s).trace, e.time ≤ T) ∧
    (s.scheduler.events = [] → executeUntil h T fuel s = ⟨s, [], []⟩) ∧
    ((executeUntil h T fuel s).trace = [] → (executeUntil h T fuel s).sim = s) ∧
    (∀ e : EventEntry ε, (executeUntil h T fuel s).trace.getLast? = some e →
      (executeUntil h T fuel s).sim.scheduler.clock = e.time) :=
  ⟨(executeUntil_facts h hpc T fuel s).1,
    fun hs => executeUntil_empty h T fuel s hs,
    (executeUntil_facts h hpc T fuel s).2.1,
    (executeUntil_facts h hpc T fuel s).2.2⟩

/-- Witness for C3: scenario B — the capped counter component rescheduling
every 2 s under `timed(5)` dispatches events at 0 s, 2 s, 4 s and leaves the
clock at 4 s, not 5 s. -/
theorem c3_timed_execution_witness :
    (executeUntil capH 5 20 capSim).sim.scheduler.clock = (4 : Nat) ∧
    (executeUntil capH 5 20 capSim).sim.state = 3 := by
  have hpc : PreservesClock capH := by
    intro e sch st
    show (if st + 1 < 10 then sch.schedule 2 e.component () else sch).clock = sch.clock
    by_cases hlt : st + 1 < 10
    · rw [if_pos hlt]
      rfl
    · rw [if_neg hlt]
  constructor
  · exact (c3_timed_execution capH hpc 5 20 capSim).2.2.2 ⟨4, 0, ()⟩ (by decide)
  · decide

/-- C7: `Executor::steps(n)` (the `execute_steps` loop) performs at most `n`
steps, and if it performed fewer than `n` it is because a step found the
scheduler empty and stopped early. -/
theorem c7_steps_execution (h : Handler ε σ) (n : Nat) (s : Simulation ε σ) :
    (executeSteps h n s).trace.length ≤ n ∧
    ((executeSteps h n s).trace.length < n →
      (executeSteps h n s).sim.scheduler.events = []) :=
  executeSteps_facts h n s

/-- Witness for C7: scenario C — the component capped at 10 self-reschedules
under `steps(100)` executes exactly 10 steps (counter 10, not 100) and ends
with an empty scheduler. -/
theorem c7_steps_execution_witness :
    (executeSteps capH 100 capSim).trace.length = 10 ∧
    (executeSteps capH 100 capSim).sim.scheduler.events = [] ∧
    (executeSteps capH 100 capSim).sim.state = 10 := by
  refine ⟨by decide, ?_, by decide⟩
  exact (c7_steps_execution capH 100 capSim).2 (by decide)

/-- C8: under every end condition, the side-effect hook of `run_with` fires
exactly once per successful step (the hook log holds the post-step view of
the simulation for each invocation), and never fires for the step that found
the scheduler empty: the number of invocations equals the number of
dispatched events. -/
theorem c8_hook_once_per_successful_step (h : Handler ε σ) (c : EndCondition)
    (fuel : Nat) (s : Simulation ε σ) :
    (runWith h c fuel s).hookLog.length = (runWith h c fuel s).trace.length := by
  cases c with
  | time t => exact executeUntil_hook h t fuel s
  | emptyQueue => exact executeUntilEmpty_hook h fuel s
  | steps n => exact executeSteps_hook h n s

/-- C4: in the value store (under the store invariant, which holds for every
store built through the interface): `insert` returns a key under which `get`
finds the value; the value stays under that key across any sequence of
further operations that does not remove it (freshly minted keys cannot
collide); and after `remove(k)` both `get(k)` and any further `remove(k)`
return none. -/
theorem c4_store_key_safety {s : StoreState α} (H : StoreInv s) (v : α) (k : Nat) :
    ((s.insert v).2.get (s.insert v).1 = some v) ∧
    (∀ w : α, s.get k = some w →
      ∀ ops : List (StoreOp α), StoreOp.remove k ∉ ops →
        (applyStoreOps s ops).get k = some w) ∧
    ((s.remove k).2.get k = none) ∧
    ((s.remove k).2.remove k = (none, (s.remove k).2)) := by
  refine ⟨?_, ?_, ?_, ?_⟩
  · show (if s.nextId = s.nextId then some v else s.store s.nextId) = some v
    simp
  · intro w hw ops hno
    exact store_get_persistent H hw ops hno
  · show (if k = k then none else s.store k) = none
    simp
  · show ((if k = k then none else s.store k),
      (⟨fun n => if n = k then none else (if n = k then none else s.store n),
        s.nextId⟩ : StoreState α)) = (none, ⟨fun n => if n = k then none else s.store n, s.nextId⟩)
    have hfun : (fun n => if n = k then none else (if n = k then none else s.store n)) =
        fun n => if n = k then (none : Option α) else s.store n := by
      funext n
      by_cases hn : n = k <;> simp [hn]
    rw [hfun]
    simp

/-- Witness for C4 on a concrete store: insert 7 at key 0, survive an
unrelated insert and a foreign-type insert, disappear after removal. -/
theorem c4_store_key_safety_witness :
    (((StoreState.empty (α := Nat) 0).insert 7).2.get 0 = some 7) ∧
    ((applyStoreOps ((StoreState.empty (α := Nat) 0).insert 7).2
      [StoreOp.insert 5, StoreOp.insertOther]).get 0 = some 7) ∧
    (((((StoreState.empty (α := Nat) 0).insert 7).2.remove 0).2).get 0 = none) := by
  have H0 : StoreInv (StoreState.empty (α := Nat) 0) := fun _ _ => rfl
  have H1 : StoreInv ((StoreState.empty (α := Nat) 0).insert 7).2 :=
    storeInv_insert H0 7
  refine ⟨(c4_store_key_safety H0 7 0).1, ?_, (c4_store_key_safety H1 7 0).2.2.1⟩
  exact (c4_store_key_safety H1 7 0).2.1 7 rfl _ (by decide)

/-- C5: a bounded FIFO holding as many items as its capacity rejects the
next push with `PushError` and is returned unchanged (`push` only mutates in
the `Ok` branch); after one successful pop, exactly one more push succeeds —
the queue is then full again and the push after that fails. -/
theorem c5_bounded_fifo_capacity (q : Fifo α) (v w u : α)
    (hfull : q.inner.length = q.capacity) :
    (q.push v = Except.error ⟨⟩) ∧
    (∀ (x : α) (q' : Fifo α), q.pop = some (x, q') →
      q'.push w = Except.ok ⟨q'.inner ++ [w], q.capacity⟩ ∧
      (⟨q'.inner ++ [w], q.capacity⟩ : Fifo α).push u = Except.error ⟨⟩) := by
  constructor
  · unfold Fifo.push
    rw [if_neg (by omega)]
  · intro x q' hpop
    unfold Fifo.pop at hpop
    cases hq : q.inner with
    | nil => rw [hq] at hpop; cases hpop
    | cons a t =>
      rw [hq] at hpop
      simp only [Option.some.injEq, Prod.mk.injEq] at hpop
      obtain ⟨rfl, rfl⟩ := hpop
      rw [hq] at hfull
      simp only [List.length_cons] at hfull
      constructor
      · show Fifo.push ⟨t, q.capacity⟩ w = Except.ok ⟨t ++ [w], q.capacity⟩
        unfold Fifo.push
        rw [if_pos (show (⟨t, q.capacity⟩ : Fifo α).inner.length <
          (⟨t, q.capacity⟩ : Fifo α).capacity by show t.length < q.capacity; omega)]
      · unfold Fifo.push
        rw [if_neg (show ¬ (⟨t ++ [w], q.capacity⟩ : Fifo α).inner.length <
          (⟨t ++ [w], q.capacity⟩ : Fifo α).capacity by
            show ¬ (t ++ [w]).length < q.capacity
            simp only [List.length_append, List.length_cons, List.length_nil]
            omega)]

/-- Witness for C5, the shape of scenario D: a capacity-2 FIFO holding two
items rejects a third; after one pop a push succeeds and the next push
fails. -/
theorem c5_bounded_fifo_capacity_witness :
    ((⟨[1, 2], 2⟩ : Fifo Nat).push 3 = Except.error ⟨⟩) ∧
    ((⟨[2], 2⟩ : Fifo Nat).push 3 = Except.ok ⟨[2, 3], 2⟩) ∧
    ((⟨[2, 3], 2⟩ : Fifo Nat).push 4 = Except.error ⟨⟩) := by
  have h := c5_bounded_fifo_capacity (⟨[1, 2], 2⟩ : Fifo Nat) 3 3 4 rfl
  exact ⟨h.1, (h.2 1 ⟨[2], 2⟩ rfl).1, (h.2 1 ⟨[2], 2⟩ rfl).2⟩

/-- C6 counterexample: with sends interleaved between recvs, a priority
queue does not return items in non-increasing order — send 1, recv (gets 1),
send 2, recv (gets 2) returns 1 before 2 although 1 < 2, falsifying the
claim as stated for arbitrary send/recv sequences. -/
theorem c6_priority_order_counterexample :
    (PriorityQueue.new.run [QOp.send 1, QOp.recv, QOp.send 2, QOp.recv]).received =
      ([1, 2] : List Nat) ∧ ¬ ((2 : Nat) ≤ 1) :=
  ⟨by decide, by decide⟩

/-- C6 (amended): FIFO queues return items in exactly the order they were
successfully sent (conservation: received prefix ++ remaining queue = initial
queue ++ sent items, for every send/recv sequence); priority queues return
items in non-increasing order across consecutive pops *not separated by
further pushes* (stated for two consecutive pops from any reachable queue);
and pushing 2, 1, 3 then receiving four times yields 3, 2, 1 and then none
(the queue is empty). -/
theorem c6_queue_order {β : Type} [LinearOrder β] (q : Fifo α) (ops : List (QOp α))
    (p : PriorityQueue β) (hp : PQReach p) :
    ((q.run ops).received ++ (q.run ops).queue.inner = q.inner ++ (q.run ops).sent) ∧
    (∀ (x : β) (p' : PriorityQueue β) (y : β) (p'' : PriorityQueue β),
      p.pop = some (x, p') → p'.pop = some (y, p'') → y ≤ x) ∧
    ((PriorityQueue.new.run
        [QOp.send 2, QOp.send 1, QOp.send 3, QOp.recv, QOp.recv, QOp.recv, QOp.recv]).received =
      ([3, 2, 1] : List Nat)) ∧
    ((PriorityQueue.new.run
        [QOp.send 2, QOp.send 1, QOp.send 3, QOp.recv, QOp.recv, QOp.recv, QOp.recv]).queue.inner =
      ([] : List Nat)) := by
  refine ⟨fifo_run_conservation q ops, ?_, by decide, by decide⟩
  intro x p' y p'' h1 h2
  exact pq_pop_pop_le (pqReach_isHeap hp) h1 h2

/-- Witness for the amended C6: consecutive pops from the queue holding
{2, 1} return 2 then 1, non-increasing. -/
theorem c6_queue_order_witness :
    ((⟨[2, 1], usizeMax⟩ : PriorityQueue Nat).pop = some (2, ⟨[1], usizeMax⟩)) ∧
    (1 : Nat) ≤ 2 := by
  have hreach : PQReach (⟨[2, 1], usizeMax⟩ : PriorityQueue Nat) :=
    PQReach.push ⟨[2], usizeMax⟩ 1 ⟨[2, 1], usizeMax⟩
      (PQReach.push PriorityQueue.new 2 ⟨[2], usizeMax⟩ PQReach.new rfl) rfl
  have h := @c6_queue_order Nat Nat _ Fifo.new [] ⟨[2, 1], usizeMax⟩ hreach
  exact ⟨rfl, h.2.1 2 ⟨[1], usizeMax⟩ 1 ⟨[], usizeMax⟩ rfl rfl⟩

end Simrs
